import Mathlib

/-!
# Verification of the DiscordRPC message protocol engine

A shallow embedding, in Lean 4, of the core of the `DiscordRPC-rs` repository:

* the message framing codec (`src/message.rs`): a frame is a 4-byte
  little-endian type identifier, a 4-byte little-endian payload length and
  the UTF-8 bytes of a serialized JSON payload;
* the request/response correlation mechanism (`src/client.rs`): a background
  pump inserts inbound messages into a nonce-keyed table, a `request` polls
  that table under an optional timeout;
* the IO scheduler (`src/lib.rs`): reconnect backoff and outbound flushing;
* the Windows named-pipe transport (`src/windows.rs`): `read`/`write` against
  the Win32 API, which we model as an oracle of OS call results.

Bytes are modelled as `Nat` (each produced byte is `< 256`), machine `u32`
arithmetic as `Nat` with explicit `% 2 ^ 32`, strings as `List Char` of
Unicode scalar values, and the JSON documents of `serde_json` as the
inductive `Json` below (numbers are modelled as integers; the floating-point
side of `serde_json::Number` is outside the model).
-/

/-! ## Characters and digits -/

/-- The code-point of a `Char`, in the ranges guaranteed by `Char.valid`
(a Unicode scalar value: below `0xd800`, or in `(0xdfff, 0x110000)`). -/
theorem char_toNat_valid (c : Char) :
    c.toNat < 0xd800 ∨ (0xdfff < c.toNat ∧ c.toNat < 0x110000) := by
  rcases c.valid with h | ⟨h1, h2⟩
  · exact Or.inl h
  · exact Or.inr ⟨h1, h2⟩

theorem char_toNat_lt (c : Char) : c.toNat < 0x110000 := by
  rcases char_toNat_valid c with h | ⟨_, h⟩ <;> omega

/-- `Char.ofNat` at a valid code-point keeps the code-point. -/
theorem toNat_ofNat_valid (n : Nat) (h : n.isValidChar) :
    (Char.ofNat n).toNat = n := by
  simp only [Char.ofNat, dif_pos h, Char.ofNatAux, Char.toNat]
  rfl

theorem char_eq_of_toNat_eq {c d : Char} (h : c.toNat = d.toNat) : c = d :=
  Char.ext (UInt32.ext h)

theorem char_toNat_ne_of_ne {c d : Char} (h : c.toNat ≠ d.toNat) : c ≠ d :=
  fun hc => h (hc ▸ rfl)

/-! ## UTF-8, as implemented by Rust's `String::from_utf8` /
`str::as_bytes`.  The encoder maps each Unicode scalar value to 1–4 bytes;
the decoder mirrors the validation ranges of the UTF-8 specification
(continuation bytes in `[0x80, 0xC0)`, no overlong forms, no surrogates,
no code-points above `0x10FFFF`). -/

/-- UTF-8 encoding of one Unicode scalar value. -/
def utf8EncodeChar (c : Char) : List Nat :=
  if c.toNat < 0x80 then [c.toNat]
  else if c.toNat < 0x800 then [0xC0 + c.toNat / 64, 0x80 + c.toNat % 64]
  else if c.toNat < 0x10000 then
    [0xE0 + c.toNat / 4096, 0x80 + c.toNat / 64 % 64, 0x80 + c.toNat % 64]
  else
    [0xF0 + c.toNat / 262144, 0x80 + c.toNat / 4096 % 64,
      0x80 + c.toNat / 64 % 64, 0x80 + c.toNat % 64]

/-- UTF-8 encoding of a string (Rust: `String::into_bytes` / `as_bytes`). -/
def utf8Encode : List Char → List Nat
  | [] => []
  | c :: cs => utf8EncodeChar c ++ utf8Encode cs

/-- UTF-8 decoding (Rust: `String::from_utf8`), fuelled by the number of
characters still to be produced.  Returns `none` exactly on ill-formed
input (when given enough fuel). -/
def utf8DecodeAux : Nat → List Nat → Option (List Char)
  | _, [] => some []
  | 0, _ :: _ => none
  | fuel + 1, b0 :: bs =>
    if b0 < 0x80 then
      (utf8DecodeAux fuel bs).map (Char.ofNat b0 :: ·)
    else if b0 < 0xC2 then none
    else if b0 < 0xE0 then
      match bs with
      | b1 :: bs1 =>
        if 0x80 ≤ b1 ∧ b1 < 0xC0 then
          (utf8DecodeAux fuel bs1).map
            (Char.ofNat ((b0 - 0xC0) * 64 + (b1 - 0x80)) :: ·)
        else none
      | [] => none
    else if b0 < 0xF0 then
      match bs with
      | b1 :: b2 :: bs2 =>
        if (if b0 = 0xE0 then 0xA0 else 0x80) ≤ b1 ∧
           b1 < (if b0 = 0xED then 0xA0 else 0xC0) ∧
           0x80 ≤ b2 ∧ b2 < 0xC0 then
          (utf8DecodeAux fuel bs2).map
            (Char.ofNat ((b0 - 0xE0) * 4096 + (b1 - 0x80) * 64 + (b2 - 0x80)) :: ·)
        else none
      | _ => none
    else if b0 < 0xF5 then
      match bs with
      | b1 :: b2 :: b3 :: bs3 =>
        if (if b0 = 0xF0 then 0x90 else 0x80) ≤ b1 ∧
           b1 < (if b0 = 0xF4 then 0x90 else 0xC0) ∧
           0x80 ≤ b2 ∧ b2 < 0xC0 ∧ 0x80 ≤ b3 ∧ b3 < 0xC0 then
          (utf8DecodeAux fuel bs3).map
            (Char.ofNat ((b0 - 0xF0) * 262144 + (b1 - 0x80) * 4096 +
              (b2 - 0x80) * 64 + (b3 - 0x80)) :: ·)
        else none
      | _ => none
    else none

/-- UTF-8 decoding of a byte list. -/
def utf8Decode (bs : List Nat) : Option (List Char) :=
  utf8DecodeAux bs.length bs

theorem utf8EncodeChar_length_pos (c : Char) : 0 < (utf8EncodeChar c).length := by
  unfold utf8EncodeChar
  repeat' split
  all_goals simp

theorem length_le_utf8Encode_length (cs : List Char) :
    cs.length ≤ (utf8Encode cs).length := by
  induction cs with
  | nil => simp [utf8Encode]
  | cons c cs ih =>
    have := utf8EncodeChar_length_pos c
    simp only [utf8Encode, List.length_append, List.length_cons]
    omega

/-- One step of the decoder undoes one step of the encoder. -/
theorem utf8DecodeAux_encodeChar (c : Char) (cs : List Nat) (fuel : Nat) :
    utf8DecodeAux (fuel + 1) (utf8EncodeChar c ++ cs) =
      (utf8DecodeAux fuel cs).map (c :: ·) := by
  have hv := char_toNat_valid c
  have hofNat : Char.ofNat c.toNat = c := Char.ofNat_toNat c
  unfold utf8EncodeChar
  by_cases h1 : c.toNat < 0x80
  · simp only [if_pos h1, List.cons_append, List.nil_append]
    simp only [utf8DecodeAux]
    rw [if_pos h1, hofNat]
  · by_cases h2 : c.toNat < 0x800
    · simp only [if_neg h1, if_pos h2, List.cons_append, List.nil_append]
      simp only [utf8DecodeAux]
      rw [if_neg (by omega), if_neg (by omega)]
      rw [if_pos (by omega), if_pos (by constructor <;> omega)]
      have : (0xC0 + c.toNat / 64 - 0xC0) * 64 + (0x80 + c.toNat % 64 - 0x80)
          = c.toNat := by omega
      rw [this, hofNat]
    · by_cases h3 : c.toNat < 0x10000
      · simp only [if_neg h1, if_neg h2, if_pos h3, List.cons_append,
          List.nil_append]
        simp only [utf8DecodeAux]
        rw [if_neg (by omega), if_neg (by omega)]
        rw [if_neg (by omega), if_pos (by omega)]
        have hb1lo : (if 0xE0 + c.toNat / 4096 = 0xE0 then 0xA0 else 0x80) ≤
            0x80 + c.toNat / 64 % 64 := by
          split
          · rename_i he
            have : c.toNat / 4096 = 0 := by omega
            have : c.toNat < 4096 := by omega
            have : 32 ≤ c.toNat / 64 := by omega
            have : c.toNat / 64 < 64 := by omega
            omega
          · omega
        have hb1hi : 0x80 + c.toNat / 64 % 64 <
            (if 0xE0 + c.toNat / 4096 = 0xED then 0xA0 else 0xC0) := by
          split
          · rename_i he
            have hq : c.toNat / 4096 = 0xD := by omega
            have hlow : 0xD000 ≤ c.toNat := by omega
            have hhigh : c.toNat < 0xD800 := by
              rcases hv with h | ⟨hgt, _⟩
              · exact h
              · omega
            have : c.toNat / 64 < 864 := by omega
            have : 832 ≤ c.toNat / 64 := by omega
            omega
          · omega
        rw [if_pos ⟨hb1lo, hb1hi, by omega, by omega⟩]
        have : (0xE0 + c.toNat / 4096 - 0xE0) * 4096 +
            (0x80 + c.toNat / 64 % 64 - 0x80) * 64 +
            (0x80 + c.toNat % 64 - 0x80) = c.toNat := by omega
        rw [this, hofNat]
      · have h4 : c.toNat < 0x110000 := char_toNat_lt c
        simp only [if_neg h1, if_neg h2, if_neg h3, List.cons_append,
          List.nil_append]
        simp only [utf8DecodeAux]
        rw [if_neg (by omega), if_neg (by omega)]
        rw [if_neg (by omega), if_neg (by omega)]
        rw [if_pos (by omega)]
        have hb1lo : (if 0xF0 + c.toNat / 262144 = 0xF0 then 0x90 else 0x80) ≤
            0x80 + c.toNat / 4096 % 64 := by
          split
          · rename_i he
            have : c.toNat / 262144 = 0 := by omega
            have : c.toNat < 262144 := by omega
            have : 16 ≤ c.toNat / 4096 := by omega
            have : c.toNat / 4096 < 64 := by omega
            omega
          · omega
        have hb1hi : 0x80 + c.toNat / 4096 % 64 <
            (if 0xF0 + c.toNat / 262144 = 0xF4 then 0x90 else 0xC0) := by
          split
          · rename_i he
            have : c.toNat / 262144 = 4 := by omega
            have : 0x100000 ≤ c.toNat := by omega
            have : c.toNat / 4096 < 272 := by omega
            have : 256 ≤ c.toNat / 4096 := by omega
            omega
          · omega
        rw [if_pos ⟨hb1lo, hb1hi, by omega, by omega, by omega, by omega⟩]
        have : (0xF0 + c.toNat / 262144 - 0xF0) * 262144 +
            (0x80 + c.toNat / 4096 % 64 - 0x80) * 4096 +
            (0x80 + c.toNat / 64 % 64 - 0x80) * 64 +
            (0x80 + c.toNat % 64 - 0x80) = c.toNat := by omega
        rw [this, hofNat]

theorem utf8DecodeAux_encode (cs : List Char) :
    ∀ fuel, cs.length ≤ fuel → utf8DecodeAux fuel (utf8Encode cs) = some cs := by
  induction cs with
  | nil => intro fuel _; cases fuel <;> rfl
  | cons c cs ih =>
    intro fuel hf
    match fuel, hf with
    | fuel + 1, hf =>
      show utf8DecodeAux (fuel + 1) (utf8EncodeChar c ++ utf8Encode cs) = _
      rw [utf8DecodeAux_encodeChar, ih fuel (by simpa using hf)]
      rfl

/-- UTF-8 round-trip: decoding the encoding of any string of Unicode scalar
values yields the string back. -/
theorem utf8Decode_encode (cs : List Char) :
    utf8Decode (utf8Encode cs) = some cs :=
  utf8DecodeAux_encode cs _ (length_le_utf8Encode_length cs)

/-! ## JSON documents

A model of `serde_json::Value` and of its `to_string` serializer and
`from_str` deserializer, restricted to the integer side of
`serde_json::Number` (floating-point numbers are outside the model).
Strings are lists of Unicode scalar values; object fields keep their
order (serialization of a `serde_json` map prints its entries in order,
and the claims only need the documents to round-trip).  The deserializer
is faithful to `serde_json::from_str` on every document this codec ever
puts on the wire; it does not model the whitespace tolerance, the
leading-zero rejection, or the float/exponent grammar of `serde_json`,
none of which can occur in a serialized document. -/

mutual
inductive Json : Type where
  | null : Json
  | bool (b : Bool) : Json
  | num (n : Int) : Json
  | str (s : List Char) : Json
  | arr (elems : JsonElems) : Json
  | obj (fields : JsonFields) : Json
inductive JsonElems : Type where
  | nil : JsonElems
  | cons (hd : Json) (tl : JsonElems) : JsonElems
inductive JsonFields : Type where
  | nil : JsonFields
  | cons (key : List Char) (val : Json) (tl : JsonFields) : JsonFields
end

/-- The decimal digit character for `n < 10`. -/
def digitChar (n : Nat) : Char := Char.ofNat (48 + n)

/-- Lowercase hexadecimal digit character for `n < 16` (serde_json's
`\u00XX` escapes use lowercase hex). -/
def hexChar (n : Nat) : Char :=
  if n < 10 then Char.ofNat (48 + n) else Char.ofNat (87 + n)

/-- Decimal digits of `n`, most significant first, fuelled (`fuel ≥ n`
suffices). -/
def natDigitsAux : Nat → Nat → List Char
  | 0, n => [digitChar (n % 10)]
  | fuel + 1, n =>
    if n < 10 then [digitChar n]
    else natDigitsAux fuel (n / 10) ++ [digitChar (n % 10)]

/-- Decimal digits of `n`, most significant first, no leading zeros. -/
def natDigits (n : Nat) : List Char := natDigitsAux n n

/-- The decimal serialization of an integer (Rust's `itoa`, used by
`serde_json` for `i64`/`u64` numbers). -/
def intChars (n : Int) : List Char :=
  if n < 0 then '-' :: natDigits n.natAbs else natDigits n.natAbs

/-- `serde_json`'s string escaping: `"` and `\` get a backslash, the named
control escapes use their short form, the remaining control characters
(below `0x20`) become `\u00XX`; everything else is emitted verbatim. -/
def escapeChar (c : Char) : List Char :=
  if c.toNat = 0x22 then ['\\', '"']
  else if c.toNat = 0x5C then ['\\', '\\']
  else if c.toNat = 0x08 then ['\\', 'b']
  else if c.toNat = 0x09 then ['\\', 't']
  else if c.toNat = 0x0A then ['\\', 'n']
  else if c.toNat = 0x0C then ['\\', 'f']
  else if c.toNat = 0x0D then ['\\', 'r']
  else if c.toNat < 0x20 then
    '\\' :: 'u' :: '0' :: '0' :: [hexChar (c.toNat / 16), hexChar (c.toNat % 16)]
  else [c]

def escapeString : List Char → List Char
  | [] => []
  | c :: cs => escapeChar c ++ escapeString cs

mutual
/-- `serde_json::Value::to_string`: the compact (whitespace-free)
serialization of a document. -/
def Json.print : Json → List Char
  | .null => "null".data
  | .bool true => "true".data
  | .bool false => "false".data
  | .num n => intChars n
  | .str s => '"' :: (escapeString s ++ ['"'])
  | .arr .nil => ['[', ']']
  | .arr (.cons h t) => '[' :: (Json.print h ++ printElems t)
  | .obj .nil => ['{', '}']
  | .obj (.cons k v t) =>
    '{' :: ('"' :: (escapeString k ++ '"' :: ':' :: (Json.print v ++ printFields t)))
/-- Remaining array elements: each is preceded by `,`; `]` closes. -/
def printElems : JsonElems → List Char
  | .nil => [']']
  | .cons h t => ',' :: (Json.print h ++ printElems t)
/-- Remaining object fields: each is preceded by `,`; the closing char is
`}`. -/
def printFields : JsonFields → List Char
  | .nil => ['}']
  | .cons k v t =>
    ',' :: ('"' :: (escapeString k ++ '"' :: ':' :: (Json.print v ++ printFields t)))
end

example : (Json.arr (.cons (.num 12) (.cons (.str ['a', 'b']) .nil))).print
    = ('[' :: '1' :: '2' :: ',' :: '"' :: 'a' :: 'b' :: '"' :: ']' :: []) := by
  decide

example : (Json.obj (.cons ['n'] (.num (-3)) .nil)).print
    = ('{' :: '"' :: 'n' :: '"' :: ':' :: '-' :: '3' :: '}' :: []) := by
  decide

/-- Strip an expected literal prefix (used for the `null`/`true`/`false`
keywords). -/
def stripChars : List Char → List Char → Option (List Char)
  | [], s => some s
  | _ :: _, [] => none
  | c :: p, x :: s => if x = c then stripChars p s else none

/-- Value of one hexadecimal digit character. -/
def hexVal (c : Char) : Option Nat :=
  if 48 ≤ c.toNat ∧ c.toNat ≤ 57 then some (c.toNat - 48)
  else if 97 ≤ c.toNat ∧ c.toNat ≤ 102 then some (c.toNat - 87)
  else if 65 ≤ c.toNat ∧ c.toNat ≤ 70 then some (c.toNat - 55)
  else none

/-- Parse a JSON string body after the opening quote: content characters
until an unescaped closing quote, undoing the escapes `serde_json` reads.
A lone `\uXXXX` surrogate is rejected (the serializer never emits one, and
this model does not need surrogate pairs).  Fuelled by the number of
produced characters plus one. -/
def parseStringBody : Nat → List Char → Option (List Char × List Char)
  | 0, _ => none
  | _ + 1, [] => none
  | fuel + 1, c :: cs =>
    if c = '"' then some ([], cs)
    else if c = '\\' then
      match cs with
      | [] => none
      | e :: cs1 =>
        if e = '"' then (parseStringBody fuel cs1).map (fun r => ('"' :: r.1, r.2))
        else if e = '\\' then
          (parseStringBody fuel cs1).map (fun r => ('\\' :: r.1, r.2))
        else if e = '/' then
          (parseStringBody fuel cs1).map (fun r => ('/' :: r.1, r.2))
        else if e = 'b' then
          (parseStringBody fuel cs1).map (fun r => (Char.ofNat 8 :: r.1, r.2))
        else if e = 't' then
          (parseStringBody fuel cs1).map (fun r => (Char.ofNat 9 :: r.1, r.2))
        else if e = 'n' then
          (parseStringBody fuel cs1).map (fun r => (Char.ofNat 10 :: r.1, r.2))
        else if e = 'f' then
          (parseStringBody fuel cs1).map (fun r => (Char.ofNat 12 :: r.1, r.2))
        else if e = 'r' then
          (parseStringBody fuel cs1).map (fun r => (Char.ofNat 13 :: r.1, r.2))
        else if e = 'u' then
          match cs1 with
          | h1 :: h2 :: h3 :: h4 :: cs4 =>
            match hexVal h1, hexVal h2, hexVal h3, hexVal h4 with
            | some a, some b, some c2, some d =>
              if a * 4096 + b * 256 + c2 * 16 + d < 0xd800 ∨
                 0xdfff < a * 4096 + b * 256 + c2 * 16 + d then
                (parseStringBody fuel cs4).map
                  (fun r => (Char.ofNat (a * 4096 + b * 256 + c2 * 16 + d) :: r.1, r.2))
              else none
            | _, _, _, _ => none
          | _ => none
        else none
    else if c.toNat < 0x20 then none
    else (parseStringBody fuel cs).map (fun r => (c :: r.1, r.2))

/-- The digit test used by the number grammar (byte in `b'0'..=b'9'`). -/
def isDigitCh (c : Char) : Bool := decide (48 ≤ c.toNat ∧ c.toNat ≤ 57)

/-- Numeric value of a digit string. -/
def digitsVal (ds : List Char) : Nat :=
  ds.foldl (fun a c => a * 10 + (c.toNat - 48)) 0

/-- Parse a non-empty run of decimal digits. -/
def parseNat (s : List Char) : Option (Nat × List Char) :=
  if (s.takeWhile isDigitCh).isEmpty then none
  else some (digitsVal (s.takeWhile isDigitCh), s.dropWhile isDigitCh)

/-- Parse an integer JSON number: an optional minus sign and a digit run. -/
def parseNumber (s : List Char) : Option (Int × List Char) :=
  match s with
  | [] => none
  | c :: rest =>
    if c = '-' then (parseNat rest).map (fun r => (-(r.1 : Int), r.2))
    else (parseNat s).map (fun r => ((r.1 : Int), r.2))

mutual
/-- `serde_json::from_str`, value layer: dispatch on the first character.
Fuelled; `parseValue` is only entered through `Json.parse`, which supplies
enough fuel for any input it can accept. -/
def parseValue : Nat → List Char → Option (Json × List Char)
  | 0, _ => none
  | fuel + 1, s =>
    match s with
    | [] => none
    | c :: r =>
      if c = 'n' then (stripChars ['u', 'l', 'l'] r).map (fun r2 => (Json.null, r2))
      else if c = 't' then
        (stripChars ['r', 'u', 'e'] r).map (fun r2 => (Json.bool true, r2))
      else if c = 'f' then
        (stripChars ['a', 'l', 's', 'e'] r).map (fun r2 => (Json.bool false, r2))
      else if c = '"' then
        (parseStringBody (r.length + 1) r).map (fun p => (Json.str p.1, p.2))
      else if c = '[' then
        match r with
        | [] => none
        | c2 :: r2 =>
          if c2 = ']' then some (Json.arr .nil, r2)
          else (parseElems fuel r).map (fun p => (Json.arr p.1, p.2))
      else if c = '{' then
        match r with
        | [] => none
        | c2 :: r2 =>
          if c2 = '}' then some (Json.obj .nil, r2)
          else (parseFields fuel r).map (fun p => (Json.obj p.1, p.2))
      else (parseNumber (c :: r)).map (fun p => (Json.num p.1, p.2))
/-- Array elements after `[`: a value, then `,` and more elements or `]`. -/
def parseElems : Nat → List Char → Option (JsonElems × List Char)
  | 0, _ => none
  | fuel + 1, s =>
    match parseValue fuel s with
    | none => none
    | some (j, r) =>
      match r with
      | [] => none
      | c :: r2 =>
        if c = ',' then
          (parseElems fuel r2).map (fun p => (JsonElems.cons j p.1, p.2))
        else if c = ']' then some (JsonElems.cons j .nil, r2)
        else none
/-- Object fields after `{`: a quoted key, `:`, a value, then `,` and more
fields or `}`. -/
def parseFields : Nat → List Char → Option (JsonFields × List Char)
  | 0, _ => none
  | fuel + 1, s =>
    match s with
    | [] => none
    | c :: r =>
      if c = '"' then
        match parseStringBody (r.length + 1) r with
        | none => none
        | some (k, r1) =>
          match r1 with
          | [] => none
          | c1 :: r2 =>
            if c1 = ':' then
              match parseValue fuel r2 with
              | none => none
              | some (v, r3) =>
                match r3 with
                | [] => none
                | c3 :: r4 =>
                  if c3 = ',' then
                    (parseFields fuel r4).map
                      (fun p => (JsonFields.cons k v p.1, p.2))
                  else if c3 = '}' then some (JsonFields.cons k v .nil, r4)
                  else none
            else none
      else none
end

/-- `serde_json::from_str` at document level: one value consuming the whole
input (serde rejects trailing characters). -/
def Json.parse (s : List Char) : Option Json :=
  match parseValue (s.length + 1) s with
  | some (j, []) => some j
  | _ => none

example : Json.parse ('[' :: '1' :: '2' :: ',' :: '"' :: 'a' :: '"' :: ']' :: [])
    = some (Json.arr (.cons (.num 12) (.cons (.str ['a']) .nil))) := rfl

example : Json.parse ('{' :: '"' :: 'n' :: '"' :: ':' :: '-' :: '3' :: '}' :: [])
    = some (Json.obj (.cons ['n'] (.num (-3)) .nil)) := rfl

example : Json.parse (Json.print (.obj (.cons ['a'] (.arr .nil) .nil)))
    = some (.obj (.cons ['a'] (.arr .nil) .nil)) := rfl

/-! ### Round-trip of the number grammar -/

/-- `rest` does not begin with a decimal digit (so a digit run followed by
`rest` parses greedily up to exactly the run). -/
def nonDigitHead : List Char → Prop
  | [] => True
  | c :: _ => c.toNat < 48 ∨ 57 < c.toNat

theorem digitChar_toNat {d : Nat} (h : d < 10) : (digitChar d).toNat = 48 + d :=
  toNat_ofNat_valid _ (Or.inl (by omega))

theorem natDigitsAux_mem {fuel : Nat} : ∀ {n c}, c ∈ natDigitsAux fuel n →
    48 ≤ c.toNat ∧ c.toNat ≤ 57 := by
  induction fuel with
  | zero =>
    intro n c hc
    simp only [natDigitsAux, List.mem_singleton] at hc
    subst hc
    rw [digitChar_toNat (Nat.mod_lt _ (by omega))]
    have : n % 10 < 10 := Nat.mod_lt _ (by omega)
    omega
  | succ fuel ih =>
    intro n c hc
    simp only [natDigitsAux] at hc
    split at hc
    · rename_i hn
      simp only [List.mem_singleton] at hc
      subst hc
      rw [digitChar_toNat hn]
      omega
    · rcases List.mem_append.mp hc with h | h
      · exact ih h
      · simp only [List.mem_singleton] at h
        subst h
        rw [digitChar_toNat (Nat.mod_lt _ (by omega))]
        have : n % 10 < 10 := Nat.mod_lt _ (by omega)
        omega

theorem natDigitsAux_head (fuel n : Nat) :
    ∃ d tail, natDigitsAux fuel n = digitChar d :: tail ∧ d < 10 := by
  induction fuel generalizing n with
  | zero => exact ⟨n % 10, [], rfl, Nat.mod_lt _ (by omega)⟩
  | succ fuel ih =>
    by_cases hn : n < 10
    · exact ⟨n, [], by simp [natDigitsAux, hn], hn⟩
    · obtain ⟨d, tail, heq, hd⟩ := ih (n / 10)
      exact ⟨d, tail ++ [digitChar (n % 10)],
        by simp [natDigitsAux, hn, heq], hd⟩

theorem digitsVal_append_singleton (l : List Char) (c : Char) :
    digitsVal (l ++ [c]) = digitsVal l * 10 + (c.toNat - 48) := by
  simp [digitsVal, List.foldl_append]

theorem digitsVal_natDigitsAux : ∀ fuel n, n ≤ fuel →
    digitsVal (natDigitsAux fuel n) = n := by
  intro fuel
  induction fuel with
  | zero =>
    intro n hn
    have : n = 0 := by omega
    subst this
    simp [natDigitsAux, digitsVal, digitChar_toNat (by omega : 0 % 10 < 10)]
  | succ fuel ih =>
    intro n hn
    simp only [natDigitsAux]
    split
    · rename_i h
      simp [digitsVal, digitChar_toNat h]
    · rename_i h
      rw [digitsVal_append_singleton, ih (n / 10) (by omega),
        digitChar_toNat (Nat.mod_lt _ (by omega))]
      omega

theorem digitsVal_natDigits (n : Nat) : digitsVal (natDigits n) = n :=
  digitsVal_natDigitsAux n n (Nat.le_refl n)

theorem natDigits_head (n : Nat) :
    ∃ d tail, natDigits n = digitChar d :: tail ∧ d < 10 :=
  natDigitsAux_head n n

theorem natDigits_mem {n : Nat} {c : Char} (h : c ∈ natDigits n) :
    48 ≤ c.toNat ∧ c.toNat ≤ 57 :=
  natDigitsAux_mem h

theorem takeWhile_nonDigitHead {rest : List Char} (h : nonDigitHead rest) :
    rest.takeWhile isDigitCh = [] := by
  cases rest with
  | nil => rfl
  | cons c cs =>
    simp only [nonDigitHead] at h
    simp [List.takeWhile_cons, isDigitCh, decide_eq_true_eq]
    omega

theorem dropWhile_nonDigitHead {rest : List Char} (h : nonDigitHead rest) :
    rest.dropWhile isDigitCh = rest := by
  cases rest with
  | nil => rfl
  | cons c cs =>
    simp only [nonDigitHead] at h
    simp [List.dropWhile_cons, isDigitCh, decide_eq_true_eq]
    omega

theorem parseNat_natDigits (n : Nat) (rest : List Char)
    (h : nonDigitHead rest) :
    parseNat (natDigits n ++ rest) = some (n, rest) := by
  have hall : ∀ c ∈ natDigits n, isDigitCh c = true := by
    intro c hc
    have := natDigits_mem hc
    simp [isDigitCh, decide_eq_true_eq]
    omega
  have htake : (natDigits n ++ rest).takeWhile isDigitCh = natDigits n := by
    rw [List.takeWhile_append_of_pos hall, takeWhile_nonDigitHead h,
      List.append_nil]
  have hdrop : (natDigits n ++ rest).dropWhile isDigitCh = rest := by
    rw [List.dropWhile_append_of_pos hall, dropWhile_nonDigitHead h]
  obtain ⟨d, tail, heq, _⟩ := natDigits_head n
  rw [parseNat, htake, hdrop, if_neg (by simp [heq]), digitsVal_natDigits]

theorem parseNumber_intChars (n : Int) (rest : List Char)
    (h : nonDigitHead rest) :
    parseNumber (intChars n ++ rest) = some (n, rest) := by
  by_cases hneg : n < 0
  · simp only [intChars, if_pos hneg, List.cons_append, parseNumber]
    rw [if_true, parseNat_natDigits _ _ h]
    show some (-((n.natAbs : Nat) : Int), rest) = some (n, rest)
    have : -((n.natAbs : Nat) : Int) = n := by omega
    rw [this]
  · simp only [intChars, if_neg hneg]
    obtain ⟨d, tail, heq, hd⟩ := natDigits_head n.natAbs
    have hne : digitChar d ≠ '-' := char_toNat_ne_of_ne (by
      rw [digitChar_toNat hd]
      show 48 + d ≠ 45
      omega)
    rw [heq]
    simp only [List.cons_append, parseNumber]
    rw [if_neg hne, ← List.cons_append, ← heq, parseNat_natDigits _ _ h]
    show some (((n.natAbs : Nat) : Int), rest) = some (n, rest)
    have : ((n.natAbs : Nat) : Int) = n := by omega
    rw [this]

/-! ### Round-trip of the string grammar -/

theorem hexChar_toNat {n : Nat} (h : n < 16) :
    (hexChar n).toNat = if n < 10 then 48 + n else 87 + n := by
  unfold hexChar
  split
  · rw [toNat_ofNat_valid _ (Or.inl (by omega))]
  · rw [toNat_ofNat_valid _ (Or.inl (by omega))]

theorem hexVal_hexChar {n : Nat} (h : n < 16) : hexVal (hexChar n) = some n := by
  unfold hexVal
  rw [hexChar_toNat h]
  by_cases h10 : n < 10
  · rw [if_pos h10, if_pos (by omega)]
    congr 1
    omega
  · rw [if_neg h10, if_neg (by omega), if_pos (by omega)]
    congr 1
    omega

theorem psb_quote (fuel : Nat) (cs : List Char) :
    parseStringBody (fuel + 1) ('"' :: cs) = some ([], cs) := rfl

theorem psb_esc_quote (fuel : Nat) (cs : List Char) :
    parseStringBody (fuel + 1) ('\\' :: '"' :: cs) =
      (parseStringBody fuel cs).map (fun r => ('"' :: r.1, r.2)) := rfl

theorem psb_esc_backslash (fuel : Nat) (cs : List Char) :
    parseStringBody (fuel + 1) ('\\' :: '\\' :: cs) =
      (parseStringBody fuel cs).map (fun r => ('\\' :: r.1, r.2)) := rfl

theorem psb_esc_b (fuel : Nat) (cs : List Char) :
    parseStringBody (fuel + 1) ('\\' :: 'b' :: cs) =
      (parseStringBody fuel cs).map (fun r => (Char.ofNat 8 :: r.1, r.2)) := rfl

theorem psb_esc_t (fuel : Nat) (cs : List Char) :
    parseStringBody (fuel + 1) ('\\' :: 't' :: cs) =
      (parseStringBody fuel cs).map (fun r => (Char.ofNat 9 :: r.1, r.2)) := rfl

theorem psb_esc_n (fuel : Nat) (cs : List Char) :
    parseStringBody (fuel + 1) ('\\' :: 'n' :: cs) =
      (parseStringBody fuel cs).map (fun r => (Char.ofNat 10 :: r.1, r.2)) := rfl

theorem psb_esc_f (fuel : Nat) (cs : List Char) :
    parseStringBody (fuel + 1) ('\\' :: 'f' :: cs) =
      (parseStringBody fuel cs).map (fun r => (Char.ofNat 12 :: r.1, r.2)) := rfl

theorem psb_esc_r (fuel : Nat) (cs : List Char) :
    parseStringBody (fuel + 1) ('\\' :: 'r' :: cs) =
      (parseStringBody fuel cs).map (fun r => (Char.ofNat 13 :: r.1, r.2)) := rfl

theorem psb_esc_u00 (fuel x y : Nat) (cs : List Char) (hx : x < 16)
    (hy : y < 16) :
    parseStringBody (fuel + 1)
        ('\\' :: 'u' :: '0' :: '0' :: hexChar x :: hexChar y :: cs) =
      (parseStringBody fuel cs).map
        (fun r => (Char.ofNat (x * 16 + y) :: r.1, r.2)) := by
  have h3 := hexVal_hexChar hx
  have h4 := hexVal_hexChar hy
  have h0 : hexVal '0' = some 0 := rfl
  simp +decide only [parseStringBody, if_false, if_true, h0, h3, h4]
  rw [if_pos (Or.inl (by omega : 0 * 4096 + 0 * 256 + x * 16 + y < 0xd800))]
  have harith : 0 * 4096 + 0 * 256 + x * 16 + y = x * 16 + y := by omega
  simp only [harith]

theorem psb_lit (fuel : Nat) (c : Char) (cs : List Char) (h1 : c ≠ '"')
    (h2 : c ≠ '\\') (h3 : ¬c.toNat < 0x20) :
    parseStringBody (fuel + 1) (c :: cs) =
      (parseStringBody fuel cs).map (fun r => (c :: r.1, r.2)) := by
  simp only [parseStringBody]
  rw [if_neg h1, if_neg h2, if_neg h3]

theorem escapeChar_length_pos (c : Char) : 0 < (escapeChar c).length := by
  unfold escapeChar
  repeat' split
  all_goals simp

theorem length_le_escapeString_length (s : List Char) :
    s.length ≤ (escapeString s).length := by
  induction s with
  | nil => simp [escapeString]
  | cons c cs ih =>
    have := escapeChar_length_pos c
    simp only [escapeString, List.length_append, List.length_cons]
    omega

/-- The string-body grammar undoes `serde_json`'s escaping. -/
theorem parseStringBody_escape (s : List Char) : ∀ fuel rest, s.length < fuel →
    parseStringBody fuel (escapeString s ++ '"' :: rest) = some (s, rest) := by
  induction s with
  | nil =>
    intro fuel rest hf
    match fuel, hf with
    | fuel + 1, _ => exact psb_quote fuel rest
  | cons c cs ih =>
    intro fuel rest hf
    match fuel, hf with
    | fuel + 1, hf =>
      have hfs : cs.length < fuel := by
        simp only [List.length_cons] at hf
        omega
      show parseStringBody (fuel + 1)
        ((escapeChar c ++ escapeString cs) ++ '"' :: rest) = _
      rw [List.append_assoc]
      by_cases q1 : c.toNat = 0x22
      · have : c = '"' := char_eq_of_toNat_eq (q1.trans (by decide))
        subst this
        rw [show escapeChar '"' = ['\\', '"'] from rfl]
        rw [List.cons_append, List.cons_append, List.nil_append,
          psb_esc_quote, ih fuel rest hfs]
        rfl
      · by_cases q2 : c.toNat = 0x5C
        · have : c = '\\' := char_eq_of_toNat_eq (q2.trans (by decide))
          subst this
          rw [show escapeChar '\\' = ['\\', '\\'] from rfl]
          rw [List.cons_append, List.cons_append, List.nil_append,
            psb_esc_backslash, ih fuel rest hfs]
          rfl
        · by_cases q3 : c.toNat = 0x08
          · rw [show escapeChar c = ['\\', 'b'] by
              unfold escapeChar
              rw [if_neg q1, if_neg q2, if_pos q3]]
            rw [List.cons_append, List.cons_append, List.nil_append,
              psb_esc_b, ih fuel rest hfs]
            have : Char.ofNat 8 = c := by
              conv_rhs => rw [← Char.ofNat_toNat c, q3]
            rw [this]
            rfl
          · by_cases q4 : c.toNat = 0x09
            · rw [show escapeChar c = ['\\', 't'] by
                unfold escapeChar
                rw [if_neg q1, if_neg q2, if_neg q3, if_pos q4]]
              rw [List.cons_append, List.cons_append, List.nil_append,
                psb_esc_t, ih fuel rest hfs]
              have : Char.ofNat 9 = c := by
                conv_rhs => rw [← Char.ofNat_toNat c, q4]
              rw [this]
              rfl
            · by_cases q5 : c.toNat = 0x0A
              · rw [show escapeChar c = ['\\', 'n'] by
                  unfold escapeChar
                  rw [if_neg q1, if_neg q2, if_neg q3, if_neg q4, if_pos q5]]
                rw [List.cons_append, List.cons_append, List.nil_append,
                  psb_esc_n, ih fuel rest hfs]
                have : Char.ofNat 10 = c := by
                  conv_rhs => rw [← Char.ofNat_toNat c, q5]
                rw [this]
                rfl
              · by_cases q6 : c.toNat = 0x0C
                · rw [show escapeChar c = ['\\', 'f'] by
                    unfold escapeChar
                    rw [if_neg q1, if_neg q2, if_neg q3, if_neg q4, if_neg q5,
                      if_pos q6]]
                  rw [List.cons_append, List.cons_append, List.nil_append,
                    psb_esc_f, ih fuel rest hfs]
                  have : Char.ofNat 12 = c := by
                    conv_rhs => rw [← Char.ofNat_toNat c, q6]
                  rw [this]
                  rfl
                · by_cases q7 : c.toNat = 0x0D
                  · rw [show escapeChar c = ['\\', 'r'] by
                      unfold escapeChar
                      rw [if_neg q1, if_neg q2, if_neg q3, if_neg q4, if_neg q5,
                        if_neg q6, if_pos q7]]
                    rw [List.cons_append, List.cons_append, List.nil_append,
                      psb_esc_r, ih fuel rest hfs]
                    have : Char.ofNat 13 = c := by
                      conv_rhs => rw [← Char.ofNat_toNat c, q7]
                    rw [this]
                    rfl
                  · by_cases q8 : c.toNat < 0x20
                    · rw [show escapeChar c = '\\' :: 'u' :: '0' :: '0' ::
                          [hexChar (c.toNat / 16), hexChar (c.toNat % 16)] by
                        unfold escapeChar
                        rw [if_neg q1, if_neg q2, if_neg q3, if_neg q4,
                          if_neg q5, if_neg q6, if_neg q7, if_pos q8]]
                      simp only [List.cons_append, List.nil_append]
                      rw [psb_esc_u00 fuel (c.toNat / 16) (c.toNat % 16) _
                        (by omega) (by omega)]
                      rw [ih fuel rest hfs]
                      have : Char.ofNat (c.toNat / 16 * 16 + c.toNat % 16)
                          = c := by
                        conv_rhs => rw [← Char.ofNat_toNat c]
                        congr 1
                        omega
                      rw [this]
                      rfl
                    · rw [show escapeChar c = [c] by
                        unfold escapeChar
                        rw [if_neg q1, if_neg q2, if_neg q3, if_neg q4,
                          if_neg q5, if_neg q6, if_neg q7, if_neg q8]]
                      rw [List.cons_append, List.nil_append,
                        psb_lit fuel c _ (char_toNat_ne_of_ne (by simp; omega))
                          (char_toNat_ne_of_ne (by simp; omega)) q8,
                        ih fuel rest hfs]
                      rfl

/-! ### Round-trip of the value grammar -/

mutual
/-- Fuel needed by `parseValue` to parse the printed form of `j`. -/
def Json.need : Json → Nat
  | .arr es => 1 + needElems es
  | .obj fs => 1 + needFields fs
  | _ => 1
def needElems : JsonElems → Nat
  | .nil => 0
  | .cons h t => 1 + Json.need h + needElems t
def needFields : JsonFields → Nat
  | .nil => 0
  | .cons _ v t => 1 + Json.need v + needFields t
end

/-- The characters a printed JSON value can start with. -/
def valueHead (c : Char) : Prop :=
  c = 'n' ∨ c = 't' ∨ c = 'f' ∨ c = '"' ∨ c = '[' ∨ c = '{' ∨ c = '-' ∨
    (48 ≤ c.toNat ∧ c.toNat ≤ 57)

theorem print_cons (j : Json) :
    ∃ c cs, Json.print j = c :: cs ∧ valueHead c := by
  cases j with
  | null => exact ⟨'n', _, rfl, Or.inl rfl⟩
  | bool b =>
    cases b
    case true => exact ⟨'t', _, rfl, Or.inr (Or.inl rfl)⟩
    case false => exact ⟨'f', _, rfl, Or.inr (Or.inr (Or.inl rfl))⟩
  | num n =>
    by_cases hneg : n < 0
    · exact ⟨'-', natDigits n.natAbs, by simp [Json.print, intChars, hneg],
        Or.inr (Or.inr (Or.inr (Or.inr (Or.inr (Or.inr (Or.inl rfl))))))⟩
    · obtain ⟨d, tail, heq, hd⟩ := natDigits_head n.natAbs
      refine ⟨digitChar d, tail, by simp [Json.print, intChars, hneg, heq], ?_⟩
      refine Or.inr (Or.inr (Or.inr (Or.inr (Or.inr (Or.inr (Or.inr ?_))))))
      rw [digitChar_toNat hd]
      omega
  | str s => exact ⟨'"', _, rfl, Or.inr (Or.inr (Or.inr (Or.inl rfl)))⟩
  | arr es =>
    cases es with
    | nil => exact ⟨'[', _, rfl, Or.inr (Or.inr (Or.inr (Or.inr (Or.inl rfl))))⟩
    | cons h t =>
      exact ⟨'[', _, rfl, Or.inr (Or.inr (Or.inr (Or.inr (Or.inl rfl))))⟩
  | obj fs =>
    cases fs with
    | nil =>
      exact ⟨'{', _, rfl, Or.inr (Or.inr (Or.inr (Or.inr (Or.inr (Or.inl rfl)))))⟩
    | cons k v t =>
      exact ⟨'{', _, rfl, Or.inr (Or.inr (Or.inr (Or.inr (Or.inr (Or.inl rfl)))))⟩

theorem valueHead_ne_rbrack {c : Char} (h : valueHead c) : c ≠ ']' := by
  rcases h with h | h | h | h | h | h | h | h
  · exact h ▸ by decide
  · exact h ▸ by decide
  · exact h ▸ by decide
  · exact h ▸ by decide
  · exact h ▸ by decide
  · exact h ▸ by decide
  · exact h ▸ by decide
  · exact char_toNat_ne_of_ne (by
      show _ ≠ (']').toNat
      have : (']').toNat = 93 := by decide
      omega)

theorem nonDigitHead_printElems (t : JsonElems) (rest : List Char) :
    nonDigitHead (printElems t ++ rest) := by
  cases t with
  | nil =>
    show (']').toNat < 48 ∨ 57 < (']').toNat
    decide
  | cons h t2 =>
    show (',').toNat < 48 ∨ 57 < (',').toNat
    decide

theorem nonDigitHead_printFields (t : JsonFields) (rest : List Char) :
    nonDigitHead (printFields t ++ rest) := by
  cases t with
  | nil =>
    show ('}').toNat < 48 ∨ 57 < ('}').toNat
    decide
  | cons k v t2 =>
    show (',').toNat < 48 ∨ 57 < (',').toNat
    decide

theorem pv_null (fuel : Nat) (r : List Char) :
    parseValue (fuel + 1) ("null".data ++ r) = some (Json.null, r) := rfl

theorem pv_true (fuel : Nat) (r : List Char) :
    parseValue (fuel + 1) ("true".data ++ r) = some (Json.bool true, r) := rfl

theorem pv_false (fuel : Nat) (r : List Char) :
    parseValue (fuel + 1) ("false".data ++ r) = some (Json.bool false, r) := rfl

theorem pv_str (fuel : Nat) (r : List Char) :
    parseValue (fuel + 1) ('"' :: r) =
      (parseStringBody (r.length + 1) r).map (fun p => (Json.str p.1, p.2)) := rfl

theorem pv_arr (fuel : Nat) (c2 : Char) (r2 : List Char) :
    parseValue (fuel + 1) ('[' :: c2 :: r2) =
      if c2 = ']' then some (Json.arr .nil, r2)
      else (parseElems fuel (c2 :: r2)).map (fun p => (Json.arr p.1, p.2)) := rfl

theorem pv_obj (fuel : Nat) (c2 : Char) (r2 : List Char) :
    parseValue (fuel + 1) ('{' :: c2 :: r2) =
      if c2 = '}' then some (Json.obj .nil, r2)
      else (parseFields fuel (c2 :: r2)).map (fun p => (Json.obj p.1, p.2)) := rfl

theorem pv_num (fuel : Nat) (c : Char) (r : List Char) (h1 : c ≠ 'n')
    (h2 : c ≠ 't') (h3 : c ≠ 'f') (h4 : c ≠ '"') (h5 : c ≠ '[') (h6 : c ≠ '{') :
    parseValue (fuel + 1) (c :: r) =
      (parseNumber (c :: r)).map (fun p => (Json.num p.1, p.2)) := by
  simp only [parseValue]
  rw [if_neg h1, if_neg h2, if_neg h3, if_neg h4, if_neg h5, if_neg h6]

theorem digitChar_ne {d : Nat} (hd : d < 10) {x : Char}
    (hx : x.toNat < 48 ∨ 57 < x.toNat) : digitChar d ≠ x :=
  char_toNat_ne_of_ne (by rw [digitChar_toNat hd]; omega)

mutual
theorem need_le_print_length (j : Json) :
    Json.need j ≤ (Json.print j).length := by
  cases j with
  | null => decide
  | bool b => cases b <;> decide
  | num n =>
    by_cases hneg : n < 0
    · simp [Json.need, Json.print, intChars, hneg]
    · obtain ⟨d, tail, heq, _⟩ := natDigits_head n.natAbs
      simp [Json.need, Json.print, intChars, hneg, heq]
  | str s => simp [Json.need, Json.print]
  | arr es =>
    cases es with
    | nil => decide
    | cons h t =>
      have := needElems_le h t
      simp only [Json.need, Json.print, List.length_cons, needElems] at this ⊢
      omega
  | obj fs =>
    cases fs with
    | nil => decide
    | cons k v t =>
      have := needFields_le k v t
      simp only [Json.need, Json.print, List.length_cons, needFields] at this ⊢
      omega
termination_by sizeOf j
theorem needElems_le (h : Json) (t : JsonElems) :
    needElems (.cons h t) ≤ (Json.print h ++ printElems t).length := by
  cases t with
  | nil =>
    have := need_le_print_length h
    simp only [needElems, printElems, List.length_append, List.length_cons,
      List.length_nil]
    omega
  | cons h2 t2 =>
    have h1 := need_le_print_length h
    have h2l := needElems_le h2 t2
    simp only [needElems, printElems, List.length_append, List.length_cons] at h2l ⊢
    omega
termination_by 1 + sizeOf h + sizeOf t
theorem needFields_le (k : List Char) (v : Json) (t : JsonFields) :
    needFields (.cons k v t) ≤
      ('"' :: (escapeString k ++ '"' :: ':' ::
        (Json.print v ++ printFields t))).length := by
  cases t with
  | nil =>
    have := need_le_print_length v
    simp only [needFields, printFields, List.length_cons, List.length_append]
    omega
  | cons k2 v2 t2 =>
    have h1 := need_le_print_length v
    have h2l := needFields_le k2 v2 t2
    simp only [needFields, printFields, List.length_cons, List.length_append]
      at h2l ⊢
    omega
termination_by 1 + sizeOf v + sizeOf t
end

theorem Json.need_pos (j : Json) : 1 ≤ Json.need j := by
  cases j <;> simp only [Json.need] <;> omega

mutual
/-- Printed values re-parse to themselves (with any non-digit-headed
remainder). -/
theorem parseValue_print (j : Json) (fuel : Nat) (rest : List Char)
    (hfuel : Json.need j ≤ fuel) (hrest : nonDigitHead rest) :
    parseValue fuel (Json.print j ++ rest) = some (j, rest) := by
  cases fuel with
  | zero => have := Json.need_pos j; omega
  | succ g =>
    cases j with
    | null => exact pv_null g rest
    | bool b =>
      cases b with
      | true => exact pv_true g rest
      | false => exact pv_false g rest
    | num n =>
      by_cases hneg : n < 0
      · rw [show Json.print (Json.num n) ++ rest
            = '-' :: (natDigits n.natAbs ++ rest) by
          simp [Json.print, intChars, hneg]]
        rw [pv_num g _ _ (by decide) (char_toNat_ne_of_ne (by decide))
          (by decide) (char_toNat_ne_of_ne (by decide)) (by decide)
          (char_toNat_ne_of_ne (by decide))]
        rw [show ('-' :: (natDigits n.natAbs ++ rest) : List Char)
            = intChars n ++ rest by simp [intChars, hneg]]
        rw [parseNumber_intChars n rest hrest]
        rfl
      · obtain ⟨d, tail, heq, hd⟩ := natDigits_head n.natAbs
        rw [show Json.print (Json.num n) ++ rest
            = digitChar d :: (tail ++ rest) by
          simp [Json.print, intChars, hneg, heq]]
        have hne1 := @digitChar_ne d hd 'n' (by decide)
        have hne2 := @digitChar_ne d hd 't' (by decide)
        have hne3 := @digitChar_ne d hd 'f' (by decide)
        have hne4 := @digitChar_ne d hd '"' (by decide)
        have hne5 := @digitChar_ne d hd '[' (by decide)
        have hne6 := @digitChar_ne d hd '{' (by decide)
        rw [pv_num g _ _ hne1 hne2 hne3 hne4 hne5 hne6]
        rw [show (digitChar d :: (tail ++ rest) : List Char)
            = intChars n ++ rest by simp [intChars, hneg, heq]]
        rw [parseNumber_intChars n rest hrest]
        rfl
    | str s =>
      rw [show Json.print (Json.str s) ++ rest
          = '"' :: (escapeString s ++ '"' :: rest) by
        simp [Json.print, List.cons_append, List.append_assoc]]
      rw [pv_str, parseStringBody_escape s _ rest (by
        simp only [List.length_append, List.length_cons]
        have := length_le_escapeString_length s
        omega)]
      rfl
    | arr es =>
      cases es with
      | nil =>
        rw [show Json.print (Json.arr .nil) ++ rest = '[' :: ']' :: rest
          from rfl]
        rw [pv_arr, if_pos rfl]
      | cons h t =>
        obtain ⟨hc, hr, hpr, hvh⟩ := print_cons h
        rw [show Json.print (Json.arr (.cons h t)) ++ rest
            = '[' :: hc :: (hr ++ (printElems t ++ rest)) by
          simp [Json.print, hpr, List.cons_append, List.append_assoc]]
        rw [pv_arr, if_neg (valueHead_ne_rbrack hvh)]
        rw [show (hc :: (hr ++ (printElems t ++ rest)) : List Char)
            = Json.print h ++ (printElems t ++ rest) by simp [hpr]]
        rw [parseElems_print h t g rest
          (by simp only [Json.need] at hfuel; omega) hrest]
        rfl
    | obj fs =>
      cases fs with
      | nil =>
        rw [show Json.print (Json.obj .nil) ++ rest = '{' :: '}' :: rest
          from rfl]
        rw [pv_obj, if_pos rfl]
      | cons k v t =>
        rw [show Json.print (Json.obj (.cons k v t)) ++ rest
            = '{' :: '"' :: (escapeString k ++ '"' :: ':' ::
              (Json.print v ++ (printFields t ++ rest))) by
          simp [Json.print, List.cons_append, List.append_assoc]]
        rw [pv_obj, if_neg (by decide : ¬('"' : Char) = '}')]
        rw [parseFields_print k v t g rest
          (by simp only [Json.need] at hfuel; omega) hrest]
        rfl
termination_by sizeOf j

/-- Printed non-empty element lists re-parse to themselves. -/
theorem parseElems_print (h : Json) (t : JsonElems) (fuel : Nat)
    (rest : List Char) (hfuel : needElems (.cons h t) ≤ fuel)
    (hrest : nonDigitHead rest) :
    parseElems fuel (Json.print h ++ (printElems t ++ rest)) =
      some (.cons h t, rest) := by
  cases fuel with
  | zero => simp only [needElems] at hfuel; omega
  | succ g =>
    cases t with
    | nil =>
      rw [show printElems JsonElems.nil ++ rest = ']' :: rest from rfl]
      have hv := parseValue_print h g (']' :: rest)
        (by simp only [needElems] at hfuel; omega)
        (Or.inr (by decide))
      simp +decide only [parseElems, hv, if_true, if_false]
    | cons h2 t2 =>
      rw [show printElems (JsonElems.cons h2 t2) ++ rest
          = ',' :: (Json.print h2 ++ (printElems t2 ++ rest)) by
        simp [printElems, List.cons_append, List.append_assoc]]
      have hv := parseValue_print h g
        (',' :: (Json.print h2 ++ (printElems t2 ++ rest)))
        (by simp only [needElems] at hfuel; omega)
        (Or.inl (by decide))
      simp +decide only [parseElems, hv, if_true, if_false]
      rw [parseElems_print h2 t2 g rest
        (by simp only [needElems] at hfuel ⊢; omega) hrest]
      rfl
termination_by 1 + sizeOf h + sizeOf t

/-- Printed non-empty field lists re-parse to themselves. -/
theorem parseFields_print (k : List Char) (v : Json) (t : JsonFields)
    (fuel : Nat) (rest : List Char) (hfuel : needFields (.cons k v t) ≤ fuel)
    (hrest : nonDigitHead rest) :
    parseFields fuel ('"' :: (escapeString k ++ '"' :: ':' ::
        (Json.print v ++ (printFields t ++ rest)))) =
      some (.cons k v t, rest) := by
  cases fuel with
  | zero => simp only [needFields] at hfuel; omega
  | succ g =>
    cases t with
    | nil =>
      rw [show printFields JsonFields.nil ++ rest = '}' :: rest from rfl]
      have hkey := parseStringBody_escape k
        ((escapeString k ++ '"' :: ':' ::
          (Json.print v ++ '}' :: rest)).length + 1)
        (':' :: (Json.print v ++ '}' :: rest)) (by
          simp only [List.length_append, List.length_cons]
          have := length_le_escapeString_length k
          omega)
      have hv := parseValue_print v g ('}' :: rest)
        (by simp only [needFields] at hfuel; omega)
        (Or.inr (by decide))
      simp +decide only [parseFields, hkey, hv, if_true, if_false]
    | cons k2 v2 t2 =>
      rw [show printFields (JsonFields.cons k2 v2 t2) ++ rest
          = ',' :: ('"' :: (escapeString k2 ++ '"' :: ':' ::
            (Json.print v2 ++ (printFields t2 ++ rest)))) by
        simp [printFields, List.cons_append, List.append_assoc]]
      have hkey := parseStringBody_escape k
        ((escapeString k ++ '"' :: ':' ::
          (Json.print v ++ ',' :: ('"' :: (escapeString k2 ++ '"' :: ':' ::
            (Json.print v2 ++ (printFields t2 ++ rest)))))).length + 1)
        (':' :: (Json.print v ++ ',' :: ('"' :: (escapeString k2 ++ '"' :: ':' ::
          (Json.print v2 ++ (printFields t2 ++ rest)))))) (by
          simp only [List.length_append, List.length_cons]
          have := length_le_escapeString_length k
          omega)
      have hv := parseValue_print v g
        (',' :: ('"' :: (escapeString k2 ++ '"' :: ':' ::
          (Json.print v2 ++ (printFields t2 ++ rest)))))
        (by simp only [needFields] at hfuel; omega)
        (Or.inl (by decide))
      simp +decide only [parseFields, hkey, hv, if_true, if_false]
      rw [parseFields_print k2 v2 t2 g rest
        (by simp only [needFields] at hfuel ⊢; omega) hrest]
      rfl
termination_by 1 + sizeOf v + sizeOf t
end

/-- `serde_json` document round-trip: parsing a printed document yields the
document back. -/
theorem Json.parse_print (j : Json) : Json.parse (Json.print j) = some j := by
  unfold Json.parse
  have h := parseValue_print j ((Json.print j).length + 1) []
    (by have := need_le_print_length j; omega) trivial
  rw [List.append_nil] at h
  rw [h]

/-! ## The message framing codec (`src/message.rs`) -/

/-- `MessageType` (`src/message.rs` lines 10–16): the five message kinds. -/
inductive MessageType : Type where
  | handshake : MessageType
  | frame : MessageType
  | close : MessageType
  | ping : MessageType
  | pong : MessageType
deriving DecidableEq

/-- The error values of this development.  `src/message.rs` constructs
`Error::InvalidMessage(msg)` with five distinct message strings, one per
failure site; each such site is one variant here, carrying its
distinguishing data.  `timedOut` is `Error::TimeoutError` of
`src/error.rs` (produced by an elapsed `tokio::time::timeout`). -/
inductive Error : Type where
  | unknownMessageType (n : Nat) : Error
  | couldNotReadLength : Error
  | truncatedFrame : Error
  | invalidEncoding : Error
  | invalidJson : Error
  | timedOut : Error
deriving DecidableEq

/-- `impl Into<u32> for MessageType` (`src/message.rs` lines 18–28). -/
def MessageType.toNat : MessageType → Nat
  | .handshake => 0
  | .frame => 1
  | .close => 2
  | .ping => 3
  | .pong => 4

/-- `impl TryFrom<u32> for MessageType` (`src/message.rs` lines 30–44):
integers 0–4 name the five kinds; anything else is the
"Unknown message-type identifier" error. -/
def MessageType.tryFrom (n : Nat) : Except Error MessageType :=
  if n = 0 then .ok .handshake
  else if n = 1 then .ok .frame
  else if n = 2 then .ok .close
  else if n = 3 then .ok .ping
  else if n = 4 then .ok .pong
  else .error (.unknownMessageType n)

/-- `Message` (`src/message.rs` lines 48–51): a kind plus a JSON payload. -/
structure Message : Type where
  msg_type : MessageType
  payload : Json

/-- `u32::to_le_bytes` applied after an `as u32` cast: the four
little-endian bytes of `n % 2^32`. -/
def u32le (n : Nat) : List Nat :=
  [n % 2 ^ 32 % 256, n % 2 ^ 32 / 256 % 256,
   n % 2 ^ 32 / 65536 % 256, n % 2 ^ 32 / 16777216 % 256]

/-- `u32::from_le_bytes` on a four-byte buffer. -/
def u32fromLe : List Nat → Nat
  | [b0, b1, b2, b3] => b0 + b1 * 256 + b2 * 65536 + b3 * 16777216
  | _ => 0

/-- Modelled from the spec: the `Connection` trait consumed by
`Message::encode_to`/`decode_from` is not among the sources (only this
consumer and the `NamedPipe` implementor are); per the spec's transport
contract, `read(buffer)` is non-blocking and returns true iff the buffer
was completely filled from the channel.  We model the readable channel as
a byte list: reading `n` bytes succeeds iff `n` bytes are available, and
consumes exactly those. -/
def readBytes (n : Nat) (s : List Nat) : Option (List Nat × List Nat) :=
  if n ≤ s.length then some (s.take n, s.drop n) else none

/-- `Message::encode_to` (`src/message.rs` lines 172–183), as the byte
buffer it writes: a 4-byte little-endian type identifier, the 4-byte
little-endian payload byte length (`payload.len() as u32`), then the UTF-8
bytes of the serialized payload. -/
def Message.encode (m : Message) : List Nat :=
  u32le m.msg_type.toNat ++
    u32le (utf8Encode (Json.print m.payload)).length ++
    utf8Encode (Json.print m.payload)

/-- `Message::decode_from` (`src/message.rs` lines 186–217): read the type
field (no bytes: "nothing yet"), map it to a kind, read the length field,
read that many payload bytes, decode UTF-8, parse JSON. -/
def Message.decode_from (s : List Nat) : Except Error (Option Message) :=
  match readBytes 4 s with
  | none => .ok none
  | some (tyBytes, s1) =>
    match MessageType.tryFrom (u32fromLe tyBytes) with
    | .error e => .error e
    | .ok ty =>
      match readBytes 4 s1 with
      | none => .error .couldNotReadLength
      | some (lenBytes, s2) =>
        match readBytes (u32fromLe lenBytes) s2 with
        | none => .error .truncatedFrame
        | some (payloadBytes, _) =>
          match utf8Decode payloadBytes with
          | none => .error .invalidEncoding
          | some chars =>
            match Json.parse chars with
            | none => .error .invalidJson
            | some payload => .ok (some ⟨ty, payload⟩)

/-- A `Message` is well-formed when its serialized payload fits the 4-byte
length field (the `as u32` cast in `encode_to` does not truncate). -/
def Message.wf (m : Message) : Prop :=
  (utf8Encode (Json.print m.payload)).length < 2 ^ 32

theorem u32le_length (n : Nat) : (u32le n).length = 4 := rfl

theorem u32fromLe_u32le {n : Nat} (h : n < 2 ^ 32) :
    u32fromLe (u32le n) = n := by
  simp only [u32le, u32fromLe]
  omega

theorem readBytes_append (n : Nat) (l r : List Nat) (h : l.length = n) :
    readBytes n (l ++ r) = some (l, r) := by
  subst h
  simp [readBytes, List.take_left, List.drop_left]

theorem readBytes_all (l : List Nat) : readBytes l.length l = some (l, []) := by
  simp [readBytes]

theorem tryFrom_toNat (t : MessageType) :
    MessageType.tryFrom t.toNat = .ok t := by
  cases t <;> rfl

/-- C1: codec round-trip — decoding the byte stream produced by encoding a
valid `Message` (any of the five kinds with a JSON payload whose serialized
form fits the length field) yields the same message, kind and payload
included. -/
theorem c1_codec_roundtrip (m : Message) (h : Message.wf m) :
    Message.decode_from (Message.encode m) = .ok (some m) := by
  unfold Message.decode_from Message.encode
  rw [List.append_assoc]
  simp only [readBytes_append 4 (u32le m.msg_type.toNat) _ (u32le_length _),
    readBytes_append 4 (u32le (utf8Encode (Json.print m.payload)).length) _
      (u32le_length _),
    tryFrom_toNat, u32fromLe_u32le h, readBytes_all, utf8Decode_encode,
    Json.parse_print,
    u32fromLe_u32le (show m.msg_type.toNat < 2 ^ 32 by
      cases m.msg_type <;> decide)]

example :
    Message.decode_from (Message.encode
      ⟨.frame, Json.obj (.cons ['c', 'm', 'd'] (Json.str ['o', 'k']) .nil)⟩) =
    .ok (some ⟨.frame, Json.obj (.cons ['c', 'm', 'd'] (Json.str ['o', 'k']) .nil)⟩) := rfl

/-- Witness for C1: a concrete `SET_ACTIVITY`-style frame round-trips. -/
theorem c1_codec_roundtrip_witness :
    Message.wf ⟨.frame, Json.obj (.cons ['n', 'o', 'n', 'c', 'e']
        (Json.str ['a', 'b', 'c']) .nil)⟩ ∧
    Message.decode_from (Message.encode ⟨.frame,
        Json.obj (.cons ['n', 'o', 'n', 'c', 'e'] (Json.str ['a', 'b', 'c']) .nil)⟩) =
      .ok (some ⟨.frame, Json.obj (.cons ['n', 'o', 'n', 'c', 'e']
        (Json.str ['a', 'b', 'c']) .nil)⟩) :=
  ⟨by unfold Message.wf; decide, c1_codec_roundtrip _ (by unfold Message.wf; decide)⟩

/-- C2: encoding layout — the encoded buffer is exactly the 4-byte
little-endian type identifier, then the 4-byte little-endian payload
length, then the UTF-8 payload bytes; the length field decodes to exactly
the UTF-8 byte length of the serialized payload.  (Building the buffer is
a total function — encoding itself cannot fail; the `bool` returned by
`encode_to` is solely the transport's `write` result.) -/
theorem c2_encode_layout (m : Message) (h : Message.wf m) :
    (Message.encode m).length
        = 8 + (utf8Encode (Json.print m.payload)).length ∧
    (Message.encode m).take 4 = u32le m.msg_type.toNat ∧
    ((Message.encode m).drop 4).take 4
        = u32le (utf8Encode (Json.print m.payload)).length ∧
    (Message.encode m).drop 8 = utf8Encode (Json.print m.payload) ∧
    u32fromLe (((Message.encode m).drop 4).take 4)
        = (utf8Encode (Json.print m.payload)).length := by
  have hd4 : (Message.encode m).drop 4
      = u32le (utf8Encode (Json.print m.payload)).length
        ++ utf8Encode (Json.print m.payload) := by
    unfold Message.encode
    rw [List.append_assoc, List.drop_left' (u32le_length _)]
  refine ⟨?_, ?_, ?_, ?_, ?_⟩
  · unfold Message.encode
    simp only [List.length_append, u32le_length]
  · unfold Message.encode
    rw [List.append_assoc, List.take_left' (u32le_length _)]
  · rw [hd4, List.take_left' (u32le_length _)]
  · unfold Message.encode
    rw [show (8 : Nat) = ((u32le m.msg_type.toNat
        ++ u32le (utf8Encode (Json.print m.payload)).length).length) by
      simp [u32le_length], List.drop_left]
  · rw [hd4, List.take_left' (u32le_length _), u32fromLe_u32le h]

/-- Witness for C2 at the concrete message `Ping {}`: the header is
`[3,0,0,0, 2,0,0,0]` followed by the two payload bytes, and the length
field holds 2. -/
theorem c2_encode_layout_witness :
    Message.encode ⟨.ping, Json.obj .nil⟩
        = [3, 0, 0, 0, 2, 0, 0, 0, 123, 125] ∧
    u32fromLe ((Message.encode ⟨.ping, Json.obj .nil⟩).drop 4 |>.take 4)
        = 2 := by
  have h := c2_encode_layout ⟨.ping, Json.obj .nil⟩ (by unfold Message.wf; decide)
  exact ⟨by decide, h.2.2.2.2⟩

/-- C3: decoding is all-or-nothing.  With fewer than 4 bytes available the
decoder reports "nothing yet" (`Ok(None)`, no error).  Once the type field
is read and valid: a missing length field or a payload shorter than the
declared length is a truncation error (`InvalidMessage` with the
"Could not read message length!" / "Partially read message frame!" texts),
and a successful decode implies the whole declared frame was present —
never a partial or shorter message. -/
theorem c3_decode_all_or_nothing (s : List Nat) :
    (s.length < 4 → Message.decode_from s = .ok none) ∧
    (∀ t, MessageType.tryFrom (u32fromLe (s.take 4)) = .ok t →
      4 ≤ s.length → s.length < 8 →
      Message.decode_from s = .error .couldNotReadLength) ∧
    (∀ t, MessageType.tryFrom (u32fromLe (s.take 4)) = .ok t →
      8 ≤ s.length → s.length < 8 + u32fromLe ((s.drop 4).take 4) →
      Message.decode_from s = .error .truncatedFrame) ∧
    (∀ m, Message.decode_from s = .ok (some m) →
      8 + u32fromLe ((s.drop 4).take 4) ≤ s.length) := by
  have hr1 : 4 ≤ s.length → readBytes 4 s = some (s.take 4, s.drop 4) :=
    fun h4 => by rw [readBytes, if_pos h4]
  have hr2 : 8 ≤ s.length →
      readBytes 4 (s.drop 4) = some ((s.drop 4).take 4, (s.drop 4).drop 4) :=
    fun h8 => by
      rw [readBytes, if_pos (by simp only [List.length_drop]; omega)]
  refine ⟨fun h4 => ?_, fun t ht h4 h8 => ?_, ?_, ?_⟩
  · unfold Message.decode_from
    rw [readBytes, if_neg (by omega)]
  · 
    have h2 : readBytes 4 (s.drop 4) = none := by
      rw [readBytes, if_neg (by simp only [List.length_drop]; omega)]
    simp only [Message.decode_from, hr1 h4, ht, h2]
  · intro t ht h8 hshort
    have h3 : readBytes (u32fromLe ((s.drop 4).take 4)) ((s.drop 4).drop 4)
        = none := by
      rw [readBytes, if_neg (by simp only [List.length_drop]; omega)]
    simp only [Message.decode_from, hr1 (by omega), ht, hr2 h8, h3]
  · intro m hm
    by_contra hlt
    push_neg at hlt
    rcases Nat.lt_or_ge s.length 4 with h4 | h4
    · rw [show Message.decode_from s = .ok none by
        unfold Message.decode_from
        rw [readBytes, if_neg (by omega)]] at hm
      exact Option.noConfusion (Except.ok.inj hm)
    · cases ht : MessageType.tryFrom (u32fromLe (s.take 4)) with
      | error e =>
        rw [show Message.decode_from s = .error e by
          simp only [Message.decode_from, hr1 h4, ht]] at hm
        exact Except.noConfusion hm
      | ok t =>
        rcases Nat.lt_or_ge s.length 8 with h8 | h8
        · rw [show Message.decode_from s = .error .couldNotReadLength by
            have h2 : readBytes 4 (s.drop 4) = none := by
              rw [readBytes, if_neg (by simp only [List.length_drop]; omega)]
            simp only [Message.decode_from, hr1 h4, ht, h2]] at hm
          exact Except.noConfusion hm
        · rw [show Message.decode_from s = .error .truncatedFrame by
            have h3 : readBytes (u32fromLe ((s.drop 4).take 4))
                ((s.drop 4).drop 4) = none := by
              rw [readBytes, if_neg (by simp only [List.length_drop]; omega)]
            simp only [Message.decode_from, hr1 h4, ht, hr2 h8, h3]] at hm
          exact Except.noConfusion hm

/-- Witness for C3: three bytes give "nothing yet"; a valid type with a
truncated length field is the length-truncation error; a declared length
of 9 with one available payload byte is the frame-truncation error. -/
theorem c3_decode_all_or_nothing_witness :
    Message.decode_from [0, 0, 0] = .ok none ∧
    Message.decode_from [1, 0, 0, 0, 5] = .error .couldNotReadLength ∧
    Message.decode_from [1, 0, 0, 0, 9, 0, 0, 0, 65]
      = .error .truncatedFrame :=
  ⟨(c3_decode_all_or_nothing [0, 0, 0]).1 (by decide),
   (c3_decode_all_or_nothing [1, 0, 0, 0, 5]).2.1 .frame rfl (by decide)
     (by decide),
   (c3_decode_all_or_nothing [1, 0, 0, 0, 9, 0, 0, 0, 65]).2.2.1 .frame rfl
     (by decide) (by decide)⟩

theorem tryFrom_of_ge {n : Nat} (h : 5 ≤ n) :
    MessageType.tryFrom n = .error (.unknownMessageType n) := by
  unfold MessageType.tryFrom
  rw [if_neg (by omega), if_neg (by omega)]
  rw [if_neg (by omega), if_neg (by omega)]
  rw [if_neg (by omega)]

theorem tryFrom_of_lt {n : Nat} (h : n < 5) :
    ∃ t, MessageType.tryFrom n = .ok t := by
  interval_cases n <;> exact ⟨_, rfl⟩

/-- C4: kind mapping — on a stream carrying at least the type field,
decoding fails with the "Unknown message-type identifier" format error
exactly when the little-endian type integer is outside `{0..4}`; each kind
maps to its fixed wire integer (Handshake 0, Frame 1, Close 2, Ping 3,
Pong 4) and converting a kind to its integer and back is the identity. -/
theorem c4_kind_mapping :
    (∀ s : List Nat, 4 ≤ s.length →
      ((∃ n, Message.decode_from s = .error (.unknownMessageType n)) ↔
        5 ≤ u32fromLe (s.take 4))) ∧
    (∀ t : MessageType, MessageType.tryFrom t.toNat = .ok t) ∧
    MessageType.toNat .handshake = 0 ∧ MessageType.toNat .frame = 1 ∧
    MessageType.toNat .close = 2 ∧ MessageType.toNat .ping = 3 ∧
    MessageType.toNat .pong = 4 := by
  refine ⟨?_, tryFrom_toNat, rfl, rfl, rfl, rfl, rfl⟩
  intro s h4
  have hr1 : readBytes 4 s = some (s.take 4, s.drop 4) := by
    rw [readBytes, if_pos h4]
  constructor
  · rintro ⟨n, hn⟩
    by_contra hlt
    push_neg at hlt
    obtain ⟨t, ht⟩ := tryFrom_of_lt hlt
    have hne : Message.decode_from s ≠ .error (.unknownMessageType n) := by
      simp only [Message.decode_from, hr1, ht]
      repeat' split
      all_goals simp
    exact hne hn
  · intro hge
    exact ⟨u32fromLe (s.take 4), by
      simp only [Message.decode_from, hr1, tryFrom_of_ge hge]⟩

/-- Witness for C4: type integer 7 is rejected as a format error, and
`Ping` survives the integer round-trip. -/
theorem c4_kind_mapping_witness :
    (∃ n, Message.decode_from [7, 0, 0, 0] = .error (.unknownMessageType n)) ∧
    MessageType.tryFrom (MessageType.toNat .ping) = .ok .ping :=
  ⟨(c4_kind_mapping.1 [7, 0, 0, 0] (by decide)).2 (by decide),
   c4_kind_mapping.2.1 .ping⟩

/-! ## Request/response correlation (`src/client.rs`)

The shared state is `Arc<Mutex<HashMap<String, Message>>>`: the inbound
pump task decodes messages and inserts each one under its nonce; each
`request` spawns a waiter that repeatedly `remove`s its own nonce.  The
mutex makes each insert/remove atomic, so the concurrent behaviour is
exactly the set of interleavings of these atomic table actions, which we
model as event lists. -/

/-- First field under `key` (a `serde_json` map holds each key once; the
serializer and parser of this model keep field order). -/
def findField : JsonFields → List Char → Option Json
  | .nil, _ => none
  | .cons k v t, key => if k = key then some v else findField t key

/-- `Message::value` (`src/message.rs` lines 161–163):
`self.payload[key].as_str()` — the string under `key` when the payload is
an object with a string there, `none` otherwise. -/
def Message.value (m : Message) (key : List Char) : Option (List Char) :=
  match m.payload with
  | .obj fs =>
    match findField fs key with
    | some (.str s) => some s
    | _ => none
  | _ => none

/-- Modelled from the spec: `msg.nonce()` called by the inbound pump
(`src/client.rs` line 46) has no definition among the sources; per the
spec the pump "matches each received Frame's nonce field", i.e. it reads
the `"nonce"` payload field, as `Message::value` does. -/
def Message.nonceVal (m : Message) : Option (List Char) :=
  m.value ['n', 'o', 'n', 'c', 'e']

/-- The nonce-keyed message table, extensionally. -/
def MsgTable : Type := List Char → Option Message

def emptyTable : MsgTable := fun _ => none

/-- One atomic table action: the pump handling one decoded inbound message
(`src/client.rs` lines 44–53), or one `remove(&nonce)` poll by the waiter
registered under `n` (lines 101–106). -/
inductive PumpEvent : Type where
  | arrive (m : Message) : PumpEvent
  | poll (n : List Char) : PumpEvent

/-- Effect of one event on the table.  `arrive` inserts the message under
its nonce when it carries one (the pump's no-nonce and error branches are
explicit do-nothing TODOs); `poll n` removes and returns the entry under
`n` when present.  The second component is the delivery made by this
event: the receiving waiter's nonce and the message it got. -/
def pumpStep (t : MsgTable) : PumpEvent → MsgTable × Option (List Char × Message)
  | .arrive m =>
    match m.nonceVal with
    | some n => ((fun k => if k = n then some m else t k), none)
    | none => (t, none)
  | .poll n =>
    match t n with
    | some m => ((fun k => if k = n then none else t k), some (n, m))
    | none => (t, none)

/-- Run a list of events, collecting all deliveries in order. -/
def pumpRun : MsgTable → List PumpEvent → MsgTable × List (List Char × Message)
  | t, [] => (t, [])
  | t, e :: es =>
    match pumpStep t e with
    | (t1, d) =>
      match pumpRun t1 es with
      | (t2, ds) => (t2, (match d with | some p => [p] | none => []) ++ ds)

theorem pumpStep_arrive_table {t : MsgTable} {m : Message}
    (hInv : ∀ k mk, t k = some mk → mk.nonceVal = some k) :
    ∀ k mk, (pumpStep t (.arrive m)).1 k = some mk → mk.nonceVal = some k := by
  intro k mk
  simp only [pumpStep]
  cases hn : m.nonceVal with
  | none => exact hInv k mk
  | some n =>
    simp only
    by_cases hk : k = n
    · subst hk
      rw [if_pos rfl]
      rintro h
      cases h
      exact hn
    · rw [if_neg hk]
      exact hInv k mk

theorem pumpRun_deliveries (es : List PumpEvent) :
    ∀ t, (∀ k mk, t k = some mk → mk.nonceVal = some k) →
      ∀ p ∈ (pumpRun t es).2, p.2.nonceVal = some p.1 ∧ PumpEvent.poll p.1 ∈ es := by
  induction es with
  | nil => intro t _ p hp; simp [pumpRun] at hp
  | cons e es ih =>
    intro t hInv p hp
    cases e with
    | arrive m =>
      have step : (pumpStep t (.arrive m)).2 = none := by
        simp only [pumpStep]
        cases m.nonceVal <;> simp
      simp only [pumpRun] at hp
      rw [show pumpStep t (.arrive m)
          = ((pumpStep t (.arrive m)).1, (pumpStep t (.arrive m)).2) from rfl,
        step] at hp
      simp only [List.nil_append] at hp
      obtain ⟨h1, h2⟩ := ih (pumpStep t (.arrive m)).1
        (pumpStep_arrive_table hInv) p (by
          rw [show pumpRun (pumpStep t (.arrive m)).1 es
              = ((pumpRun (pumpStep t (.arrive m)).1 es).1,
                 (pumpRun (pumpStep t (.arrive m)).1 es).2) from rfl] at hp
          exact hp)
      exact ⟨h1, List.mem_cons_of_mem _ h2⟩
    | poll n =>
      cases htn : t n with
      | some m0 =>
        have hstep : pumpStep t (.poll n)
            = ((fun k => if k = n then none else t k), some (n, m0)) := by
          simp only [pumpStep, htn]
        simp only [pumpRun, hstep] at hp
        rw [show pumpRun (fun k => if k = n then none else t k) es
            = ((pumpRun (fun k => if k = n then none else t k) es).1,
               (pumpRun (fun k => if k = n then none else t k) es).2)
          from rfl] at hp
        simp only [List.singleton_append, List.mem_cons] at hp
        rcases hp with rfl | hp
        · exact ⟨hInv n m0 htn, List.mem_cons_self _ _⟩
        · have hInv2 : ∀ k mk, (if k = n then none else t k) = some mk →
              mk.nonceVal = some k := by
            intro k mk
            by_cases hk : k = n
            · rw [if_pos hk]; rintro ⟨⟩
            · rw [if_neg hk]; exact hInv k mk
          obtain ⟨h1, h2⟩ := ih _ hInv2 p hp
          exact ⟨h1, List.mem_cons_of_mem _ h2⟩
      | none =>
        have hstep : pumpStep t (.poll n) = (t, none) := by
          simp only [pumpStep, htn]
        simp only [pumpRun, hstep] at hp
        rw [show pumpRun t es = ((pumpRun t es).1, (pumpRun t es).2)
          from rfl] at hp
        simp only [List.nil_append] at hp
        obtain ⟨h1, h2⟩ := ih t hInv p hp
        exact ⟨h1, List.mem_cons_of_mem _ h2⟩

/-- C5: correlation — in every interleaving of pump insertions and waiter
polls starting from the empty table: every delivery hands a message whose
nonce is exactly the receiving waiter's nonce (never another waiter's);
a delivering poll removes the table entry for that nonce; an inbound
message never produces a delivery by itself and is handled without any
error (the step is total); and if no waiter ever polls nonce `n`, no
delivery under `n` ever happens. -/
theorem c5_correlation (es : List PumpEvent) (t : MsgTable) (n : List Char)
    (m : Message) :
    (∀ p ∈ (pumpRun emptyTable es).2, p.2.nonceVal = some p.1) ∧
    ((pumpStep t (.poll n)).2 = some (n, m) →
      (pumpStep t (.poll n)).1 n = none) ∧
    (pumpStep t (.arrive m)).2 = none ∧
    ((∀ e ∈ es, e ≠ .poll n) →
      ∀ p ∈ (pumpRun emptyTable es).2, p.1 ≠ n) := by
  refine ⟨fun p hp => ?_, ?_, ?_, ?_⟩
  · exact (pumpRun_deliveries es emptyTable (fun k mk h => by
      simp [emptyTable] at h) p hp).1
  · simp only [pumpStep]
    cases htn : t n with
    | none => simp
    | some m0 =>
      simp only
      intro _
      simp
  · simp only [pumpStep]
    cases m.nonceVal <;> simp
  · intro hnone p hp hpn
    have := (pumpRun_deliveries es emptyTable (fun k mk h => by
      simp [emptyTable] at h) p hp).2
    exact hnone _ this (by rw [hpn])

/-- Witness for C5: the trace "a frame with nonce `abc` arrives, then the
waiter under `abc` polls" delivers only to `abc`, and an `arrive` step
never delivers. -/
theorem c5_correlation_witness :
    (∀ p ∈ (pumpRun emptyTable
        [.arrive ⟨.frame, Json.obj (.cons ['n', 'o', 'n', 'c', 'e']
          (Json.str ['a', 'b', 'c']) .nil)⟩,
         .poll ['a', 'b', 'c']]).2, p.2.nonceVal = some p.1) ∧
    (pumpStep emptyTable (.arrive ⟨.frame, Json.null⟩)).2 = none :=
  ⟨(c5_correlation _ emptyTable [] ⟨.frame, Json.null⟩).1,
   (c5_correlation [] emptyTable [] ⟨.frame, Json.null⟩).2.2.1⟩

/-- `Client::request` with a timeout (`src/client.rs` lines 85–117),
projected onto the shared table: the spawned waiter repeatedly
`remove`s its nonce while the pump inserts arriving messages;
`tokio::time::timeout` bounds the wait, so `arrivals` lists exactly the
messages the pump handles before the deadline, the waiter polling after
each.  Returns the final table and the delivered message, if any. -/
def awaitNonce (n : List Char) : MsgTable → List Message → MsgTable × Option Message
  | t, [] =>
    match t n with
    | some m => ((fun k => if k = n then none else t k), some m)
    | none => (t, none)
  | t, msg :: rest =>
    match t n with
    | some m => ((fun k => if k = n then none else t k), some m)
    | none => awaitNonce n (pumpStep t (.arrive msg)).1 rest

/-- The caller-visible result of `request` under a timeout: the delivered
message, or — when the deadline passes with no delivery — the elapsed
timeout turned into `Error::TimeoutError` by the two `?` in
`join.await??`. -/
def requestOutcome (n : List Char) (t : MsgTable) (arrivals : List Message) :
    Except Error Message :=
  match awaitNonce n t arrivals with
  | (_, some m) => .ok m
  | (_, none) => .error .timedOut

/-- C6: request timeout — if the request's nonce is not in the table
(nonces are fresh UUIDs) and no message carrying that nonce arrives
before the timeout elapses, the caller gets the timeout error and the
table holds no entry for that nonce afterwards. -/
theorem c6_request_timeout (n : List Char) (t : MsgTable)
    (arrivals : List Message) (hfresh : t n = none)
    (hmiss : ∀ msg ∈ arrivals, msg.nonceVal ≠ some n) :
    requestOutcome n t arrivals = .error .timedOut ∧
    (awaitNonce n t arrivals).1 n = none := by
  have key : awaitNonce n t arrivals = ((awaitNonce n t arrivals).1, none) ∧
      (awaitNonce n t arrivals).1 n = none := by
    induction arrivals generalizing t with
    | nil => simp [awaitNonce, hfresh]
    | cons msg rest ih =>
      have hstep : (pumpStep t (.arrive msg)).1 n = none := by
        simp only [pumpStep]
        cases hn : msg.nonceVal with
        | none => exact hfresh
        | some k =>
          simp only
          rw [if_neg (by
            intro h
            exact hmiss msg (List.mem_cons_self _ _) (h ▸ hn))]
          exact hfresh
      simp only [awaitNonce, hfresh]
      exact ih _ hstep (fun m hm => hmiss m (List.mem_cons_of_mem _ hm))
  constructor
  · rw [requestOutcome, key.1]
  · exact key.2

/-- Witness for C6: fresh nonce `n1`, one unrelated arrival before the
deadline — the caller sees the timeout error and the table has no `n1`
entry. -/
theorem c6_request_timeout_witness :
    requestOutcome ['n', '1'] emptyTable
        [⟨.frame, Json.obj (.cons ['n', 'o', 'n', 'c', 'e']
          (Json.str ['x']) .nil)⟩] = .error .timedOut ∧
    (awaitNonce ['n', '1'] emptyTable
        [⟨.frame, Json.obj (.cons ['n', 'o', 'n', 'c', 'e']
          (Json.str ['x']) .nil)⟩]).1 ['n', '1'] = none :=
  c6_request_timeout ['n', '1'] emptyTable _ rfl (by
    intro msg hm
    simp only [List.mem_singleton] at hm
    subst hm
    decide)

/-! ## The IO scheduler (`src/lib.rs`) -/

/-- One wake of the IO thread as the reconnect logic sees it
(`IoProcess::update_client`, `src/lib.rs` lines 163–176): the wall-clock
time of the cycle in milliseconds and whether the client is open. -/
structure IoCycle : Type where
  now : Nat
  isOpen : Bool

/-- The disconnected branch of `update_client`: reconnect only when
`now.duration_since(last_connect)` is `Ok` (`last_connect ≤ now`, a
`SystemTime` can go backwards) and the elapsed time reaches
`RECONNECT_DELAY` (1000 ms); on an attempt, `last_connect` is set to
`now` and `client.open()` is called.  Returns the new `last_connect`
and whether `open()` was attempted this cycle. -/
def reconnectStep (last : Nat) (c : IoCycle) : Nat × Bool :=
  if c.isOpen then (last, false)
  else if last ≤ c.now ∧ 1000 ≤ c.now - last then (c.now, true)
  else (last, false)

/-- The times of all reconnect attempts over a run of scheduler cycles
(`last_connect` starts at `SystemTime::UNIX_EPOCH`, i.e. 0). -/
def reconnectTrace : Nat → List IoCycle → List Nat
  | _, [] => []
  | last, c :: cs =>
    match reconnectStep last c with
    | (last1, true) => c.now :: reconnectTrace last1 cs
    | (last1, false) => reconnectTrace last1 cs

theorem reconnectTrace_bounds (cs : List IoCycle) :
    ∀ last, (∀ x ∈ reconnectTrace last cs, last + 1000 ≤ x) ∧
      List.Chain' (fun a b => a + 1000 ≤ b) (reconnectTrace last cs) := by
  induction cs with
  | nil => intro last; simp [reconnectTrace]
  | cons c cs ih =>
    intro last
    by_cases hopen : c.isOpen
    · have hstep : reconnectStep last c = (last, false) := by
        simp [reconnectStep, hopen]
      simp only [reconnectTrace, hstep]
      exact ih last
    · by_cases hcond : last ≤ c.now ∧ 1000 ≤ c.now - last
      · have hstep : reconnectStep last c = (c.now, true) := by
          simp [reconnectStep, hopen, hcond]
        simp only [reconnectTrace, hstep]
        obtain ⟨hb, hc⟩ := ih c.now
        refine ⟨fun z hz => ?_, ?_⟩
        · rcases List.mem_cons.mp hz with rfl | hz2
          · omega
          · have := hb z hz2
            omega
        · cases hlist : reconnectTrace c.now cs with
          | nil => simp
          | cons y ys =>
            rw [List.chain'_cons]
            constructor
            · have := hb y (by rw [hlist]; exact List.mem_cons_self _ _)
              omega
            · rw [← hlist]
              exact hc
      · have hstep : reconnectStep last c = (last, false) := by
          simp [reconnectStep, hopen, hcond]
        simp only [reconnectTrace, hstep]
        exact ih last
    
/-- C7: reconnect backoff — over any run of scheduler cycles, consecutive
reconnect attempts are at least the 1000 ms backoff apart; an attempt
happens exactly when the client is open-less and `now - last_attempt`
has reached the backoff; and an attempt sets `last_attempt` to `now`
(otherwise it is unchanged). -/
theorem c7_reconnect_backoff (cs : List IoCycle) (l : Nat) (c : IoCycle) :
    List.Chain' (fun a b => a + 1000 ≤ b) (reconnectTrace 0 cs) ∧
    ((reconnectStep l c).2 = true ↔
      (c.isOpen = false ∧ l ≤ c.now ∧ 1000 ≤ c.now - l)) ∧
    (reconnectStep l c).1 = (if (reconnectStep l c).2 then c.now else l) := by
  refine ⟨(reconnectTrace_bounds cs 0).2, ?_, ?_⟩
  · unfold reconnectStep
    by_cases hopen : c.isOpen
    · simp [hopen]
    · by_cases hcond : l ≤ c.now ∧ 1000 ≤ c.now - l
      · simp [hopen, hcond]
      · simp only [if_neg hopen, if_neg hcond]
        simp only [Bool.not_eq_true] at hopen
        simp [hopen]
        omega
  · unfold reconnectStep
    by_cases hopen : c.isOpen
    · simp [hopen]
    · by_cases hcond : l ≤ c.now ∧ 1000 ≤ c.now - l
      · simp [hopen, hcond]
      · simp [hopen, hcond]

/-- Witness for C7: cycles at 1500, 1700 and 2600 ms while disconnected
attempt at 1500 (≥ 0 + 1000) and 2600 (≥ 1500 + 1000) but not at 1700,
and the attempt list satisfies the backoff chain. -/
theorem c7_reconnect_backoff_witness :
    List.Chain' (fun a b => a + 1000 ≤ b)
      (reconnectTrace 0 [⟨1500, false⟩, ⟨1700, false⟩, ⟨2600, false⟩]) ∧
    reconnectTrace 0 [⟨1500, false⟩, ⟨1700, false⟩, ⟨2600, false⟩]
      = [1500, 2600] :=
  ⟨(c7_reconnect_backoff [⟨1500, false⟩, ⟨1700, false⟩, ⟨2600, false⟩]
      0 ⟨0, false⟩).1, by decide⟩

/-- The outbound flush of `IoProcess::update_client` (`src/lib.rs` lines
203–211): while the send queue is non-empty, `pop_front` the next message
and `client.write` it; the write result is inspected but both branches
fall through (the retry is an explicit unimplemented TODO).  `write` is
the client's write oracle; the result records each attempted message with
its write result, plus the final queue. -/
def flushQueue (write : Message → Bool) :
    List Message → List (Message × Bool) × List Message
  | [] => ([], [])
  | msg :: rest =>
    match flushQueue write rest with
    | (att, q) => ((msg, write msg) :: att, q)

/-- C8 (amended): on a connected cycle the queued messages are popped and
written in FIFO enqueue order — but every message is removed from the
queue regardless of its write result, so a message whose write fails is
dropped, not retried (the flush always leaves the queue empty). -/
theorem c8_flush_fifo_drops_failures (write : Message → Bool)
    (q : List Message) :
    (flushQueue write q).1 = q.map (fun msg => (msg, write msg)) ∧
    (flushQueue write q).2 = [] := by
  induction q with
  | nil => exact ⟨rfl, rfl⟩
  | cons msg rest ih =>
    simp only [flushQueue, List.map_cons]
    rw [show flushQueue write rest
        = ((flushQueue write rest).1, (flushQueue write rest).2) from rfl,
      ih.1, ih.2]
    exact ⟨rfl, rfl⟩

/-- Counterexample to C8 as stated: with a failing writer and the single
queued message `Ping {}`, the flush attempts the write, the write fails,
and the queue is left empty — the next cycle's flush attempts nothing, so
the failed message was dropped, not "recorded and retried on the next
cycle". -/
theorem c8_write_failure_drops :
    (flushQueue (fun _ => false) [⟨.ping, Json.obj .nil⟩]).1
      = [(⟨.ping, Json.obj .nil⟩, false)] ∧
    (flushQueue (fun _ => false) [⟨.ping, Json.obj .nil⟩]).2 = [] ∧
    (flushQueue (fun _ => false)
      (flushQueue (fun _ => false) [⟨.ping, Json.obj .nil⟩]).2).1 = [] :=
  ⟨rfl, rfl, rfl⟩

/-! ## The Windows named-pipe transport (`src/windows.rs`)

`NamedPipe::read`/`write` wrap Win32 calls; we model one call's OS-side
results as explicit oracle values.  On a byte-mode pipe, a successful
`ReadFile` may report fewer bytes than requested (it returns as soon as
some data is available), so the reported count is part of the oracle. -/

/-- The Win32 results one `NamedPipe::read` consumes: whether
`PeekNamedPipe` succeeds, whether `ReadFile` succeeds, and the byte count
`ReadFile` reports (at most the requested length). -/
structure OsRead : Type where
  peekOk : Bool
  readOk : Bool
  bytesRead : Nat

/-- `NamedPipe::read` (`src/windows.rs` lines 176–196): closed pipe →
false; `PeekNamedPipe` failure → `close()`, false; `ReadFile` success →
true — the reported byte count is never compared to the buffer length
(the peeked `bytes_available` is fetched but never used); `ReadFile`
failure → `close()`, false.  Result: (returned bool, bytes filled, pipe
still open afterwards). -/
def NamedPipe.read (isOpen : Bool) (os : OsRead) (bufLen : Nat) :
    Bool × Nat × Bool :=
  if !isOpen then (false, 0, false)
  else if os.peekOk then
    if os.readOk then (true, min os.bytesRead bufLen, true)
    else (false, 0, false)
  else (false, 0, false)

/-- C9 (failing input): on an open pipe with `PeekNamedPipe` and
`ReadFile` succeeding but only 2 of the 4 requested bytes read —
possible on a byte-mode pipe — `read` returns `true` with a partially
filled buffer, contradicting "true iff the buffer was completely
filled". -/
theorem c9_read_true_short_fill :
    (NamedPipe.read true ⟨true, true, 2⟩ 4).1 = true ∧
    (NamedPipe.read true ⟨true, true, 2⟩ 4).2.1 = 2 ∧
    (2 : Nat) ≠ 4 := by decide

/-- The Win32 results one `NamedPipe::write` consumes: whether
`WriteFile` succeeds and the byte count it reports written
(`bytes_written` is a `DWORD`, so the OS only ever reports values below
`2^32`; the oracle field is a `Nat` but only such values model real
calls). -/
structure OsWrite : Type where
  writeOk : Bool
  bytesWritten : Nat

/-- `NamedPipe::write` (`src/windows.rs` lines 198–212): an empty buffer
returns true before the `is_open` check, with no OS call; a non-empty
buffer on a closed pipe returns false without writing; otherwise
`WriteFile` is asked for `buffer.len() as DWORD` — that is,
`buffer.len() % 2^32` — bytes (then `FlushFileBuffers` runs) and the
result is `bytes_written == buffer.len() as DWORD`: the comparison is
against the truncated length, not against `buffer.len()` itself. -/
def NamedPipe.write (isOpen : Bool) (os : OsWrite) (bufLen : Nat) : Bool :=
  if bufLen = 0 then true
  else if !isOpen then false
  else if os.writeOk then decide (os.bytesWritten = bufLen % 2 ^ 32)
  else false

/-- Counterexample to C10 as stated: at the non-empty buffer length
`2^32` on an open pipe, the `as DWORD` cast makes the source request 0
bytes from `WriteFile`; the OS reports 0 bytes written, the comparison
`0 == 0` succeeds, and `write` returns true — although the OS did not
report `buffer.len()` (= `2^32`) bytes written.  So "true only if the OS
reports exactly `buffer.len()` bytes written" fails. -/
theorem c10_write_truncation_counterexample :
    0 < 2 ^ 32 ∧
    NamedPipe.write true ⟨true, 0⟩ (2 ^ 32) = true ∧
    (0 : Nat) ≠ 2 ^ 32 := by decide

/-- C10 (amended): `write` with an empty buffer is true regardless of the
pipe state and of the OS (no OS write happens); a non-empty buffer on a
closed pipe gives false; a non-empty buffer on an open pipe gives true
exactly when `WriteFile` succeeds reporting exactly
`buffer.len() as DWORD` (= `buffer.len() % 2^32`) bytes written — which
coincides with "exactly `buffer.len()` bytes" precisely when the buffer
is smaller than 4 GiB. -/
theorem c10_write_contract (isOpen : Bool) (os : OsWrite) (bufLen : Nat) :
    NamedPipe.write isOpen os 0 = true ∧
    (0 < bufLen → NamedPipe.write false os bufLen = false) ∧
    (0 < bufLen →
      (NamedPipe.write true os bufLen = true ↔
        os.writeOk = true ∧ os.bytesWritten = bufLen % 2 ^ 32)) ∧
    (0 < bufLen → bufLen < 2 ^ 32 →
      (NamedPipe.write true os bufLen = true ↔
        os.writeOk = true ∧ os.bytesWritten = bufLen)) := by
  have harm : ∀ hpos : 0 < bufLen,
      NamedPipe.write true os bufLen
        = if os.writeOk then decide (os.bytesWritten = bufLen % 2 ^ 32)
          else false := by
    intro hpos
    rw [NamedPipe.write, if_neg (by omega)]
    rfl
  refine ⟨rfl, ?_, ?_, ?_⟩
  · intro hpos
    rw [NamedPipe.write, if_neg (by omega)]
    rfl
  · intro hpos
    rw [harm hpos]
    by_cases hw : os.writeOk
    · simp [hw]
    · simp [hw]
  · intro hpos hlt
    rw [harm hpos, Nat.mod_eq_of_lt hlt]
    by_cases hw : os.writeOk
    · simp [hw]
    · simp [hw]

/-- Witness for C10: empty buffer on a closed pipe succeeds; 2 bytes on a
closed pipe fail; 2 bytes (below 4 GiB) on an open pipe with `WriteFile`
reporting 2 written succeed. -/
theorem c10_write_contract_witness :
    NamedPipe.write false ⟨false, 0⟩ 0 = true ∧
    NamedPipe.write false ⟨true, 2⟩ 2 = false ∧
    NamedPipe.write true ⟨true, 2⟩ 2 = true :=
  ⟨(c10_write_contract false ⟨false, 0⟩ 0).1,
   (c10_write_contract false ⟨true, 2⟩ 2).2.1 (by decide),
   ((c10_write_contract true ⟨true, 2⟩ 2).2.2.2 (by decide)
     (by decide)).mpr ⟨rfl, rfl⟩⟩
